import Mathlib

set_option linter.unusedVariables false

/-!
Verification of the object-filter specification parser of
`list-objects-filter-options.c`: parsing, reserved-character validation,
percent decoding of combine sub-tokens, canonical re-serialization
(`expand_list_objects_filter_spec`) and recursive release
(`list_objects_filter_release`).

Byte strings are modelled as `List Char`; the mutable
`struct list_objects_filter_options` is modelled as an immutable record that
each C function maps to its post-state.  Process-terminating exits
(`BUG`, `die`, a failing `assert`) are modelled as `none`; an ordinary
return of the C `int` result together with the updated node and error
buffer is `some (result, node, errbuf)`.
-/

namespace GitFilterSpec

/-- Byte strings of the C source, modelled as lists of characters. -/
abbrev Str := List Char

/-- The `list_objects_filter_choice` enumeration.  `LOFC_DISABLED` is the
zero value: a `memset`-zeroed, not-yet-populated node has this kind. -/
inductive Choice where
  | LOFC_DISABLED
  | LOFC_BLOB_NONE
  | LOFC_BLOB_LIMIT
  | LOFC_TREE_DEPTH
  | LOFC_SPARSE_OID
  | LOFC_COMBINE
  deriving DecidableEq, Repr

/-- The `struct list_objects_filter_options` node.  `filter_spec` is the
owned `char *filter_spec` (the original spec text), `NULL` modelled as
`none`; `sparse_oid_value` is the optional resolved object id; `sub`,
together with its length, models the `sub`/`sub_nr` child array of a
combine node.  The `sub_alloc` capacity field has no observable content
and is omitted. -/
structure FilterOptions where
  choice : Choice
  filter_spec : Option Str
  blob_limit_value : Nat
  tree_exclude_depth : Nat
  sparse_oid_value : Option Str
  sub : List FilterOptions

/-- The all-zero node produced by `memset(filter_options, 0, sizeof(..))`:
unkinded, with no owned text, no payload and no children. -/
def emptyFO : FilterOptions :=
  { choice := Choice.LOFC_DISABLED, filter_spec := none, blob_limit_value := 0,
    tree_exclude_depth := 0, sparse_oid_value := none, sub := [] }

/-- git's `skip_prefix(str, prefix, &out)`: if `s` starts with `p`, return
the remainder after the prefix. -/
def skip_prefix : Str → Str → Option Str
  | [], s => some s
  | _ :: _, [] => none
  | p :: ps, c :: cs => if c = p then skip_prefix ps cs else none

/-- Modelled from the spec: `git_parse_ulong` (config.c, not under `src/`).
Per the spec, `UINT` parsing is decimal unsigned, and overflow past the
unsigned range or non-numeric content is a failure. -/
def git_parse_ulong (s : Str) : Option Nat :=
  if s.isEmpty then none
  else if !(s.all Char.isDigit) then none
  else
    let v := s.foldl (fun a c => a * 10 + (c.toNat - 48)) 0
    if v < 2 ^ 64 then some v else none

/-- Value of a hexadecimal digit character, if any. -/
def hexVal (c : Char) : Option Nat :=
  if '0' ≤ c ∧ c ≤ '9' then some (c.toNat - 48)
  else if 'a' ≤ c ∧ c ≤ 'f' then some (c.toNat - 87)
  else if 'A' ≤ c ∧ c ≤ 'F' then some (c.toNat - 55)
  else none

/-- Modelled from the spec: `url_percent_decode` (url.c, not under `src/`).
A `%` followed by two hex digits becomes the encoded byte; every other
character is copied through unchanged. -/
def url_percent_decode : Str → Str
  | [] => []
  | '%' :: a :: b :: rest =>
    match hexVal a, hexVal b with
    | some ha, some hb => Char.ofNat (16 * ha + hb) :: url_percent_decode rest
    | _, _ => '%' :: url_percent_decode (a :: b :: rest)
  | c :: rest => c :: url_percent_decode rest

/-- The fixed punctuation set `RESERVED_NON_WS` of the source. -/
def RESERVED_NON_WS : Str := "~\x60!@#$^&*()[]\x7b\x7d\\;\x27\x22,<>?".toList

/-- `has_reserved_character`: walk the still-encoded sub-spec token and
fail on the first byte that is `<= ' '` or in `RESERVED_NON_WS`, appending
the error message naming that character. -/
def has_reserved_character (sub_spec : Str) (errbuf : Str) : Nat × Str :=
  match sub_spec with
  | [] => (0, errbuf)
  | c :: rest =>
    if c.toNat ≤ 32 || RESERVED_NON_WS.contains c then
      (1, errbuf ++ ("must escape char in sub-filter-spec: \x27".toList
                      ++ [c] ++ "\x27".toList))
    else has_reserved_character rest errbuf

/-- Modelled from the spec: `strbuf_split_str` (strbuf.c, not under
`src/`) splits on the separator into chunks, each chunk keeping its
trailing separator (witnessed by the `assert`/`strbuf_remove` in
`parse_combine_filter`); the empty string yields no chunks. -/
def strbuf_split_str (term : Char) : Str → List Str
  | [] => []
  | c :: rest =>
    if c = term then [c] :: strbuf_split_str term rest
    else
      match strbuf_split_str term rest with
      | [] => [[c]]
      | chunk :: chunks => (c :: chunk) :: chunks

/-- Total length of a list of chunks. -/
def sumLen (l : List Str) : Nat := l.foldr (fun t a => t.length + a) 0

@[simp]
theorem sumLen_nil : sumLen [] = 0 := rfl

@[simp]
theorem sumLen_cons (t : Str) (l : List Str) :
    sumLen (t :: l) = t.length + sumLen l := rfl

theorem skip_prefix_length {p s r : Str} (h : skip_prefix p s = some r) :
    s.length = p.length + r.length := by
  induction p generalizing s with
  | nil =>
    simp only [ skip_prefix, Option.some.injEq] at h
    subst h
    simp
  | cons x xs ih =>
    cases s with
    | nil => simp [ skip_prefix] at h
    | cons c cs =>
      simp only [ skip_prefix] at h
      by_cases hc : c = x
      · rw [if_pos hc] at h
        have := ih h
        simp only [List.length_cons, this]
        omega
      · rw [if_neg hc] at h
        exact absurd h (by simp)

theorem url_percent_decode_length (s : Str) :
    (url_percent_decode s).length ≤ s.length := by
  induction s using url_percent_decode.induct with
  | case1 => simp [url_percent_decode]
  | case2 a b rest ha hb hhb hha ih =>
    rw [url_percent_decode, hha, hhb]
    simp only [List.length_cons]
    omega
  | case3 a b rest hno ih =>
    rw [url_percent_decode]
    cases hha : hexVal a with
    | none =>
      cases hhb : hexVal b <;>
        · simp at ih ⊢
          omega
    | some x =>
      cases hhb : hexVal b with
      | none =>
        simp at ih ⊢
        omega
      | some y => exact (hno x y hha hhb).elim
  | case4 c rest hne ih =>
    by_cases hc : c = '%'
    · subst hc
      cases rest with
      | nil => simp [url_percent_decode]
      | cons a rest' =>
        cases rest' with
        | nil =>
          rw [show url_percent_decode ('%' :: [a]) = '%' :: url_percent_decode [a] from by
                simp [url_percent_decode]]
          simp only [List.length_cons] at ih ⊢
          omega
        | cons b r2 => exact (hne a b r2 rfl rfl).elim
    · rw [show url_percent_decode (c :: rest) = c :: url_percent_decode rest from by
            simp [url_percent_decode, hc]]
      simp only [List.length_cons] at ih ⊢
      omega

theorem strbuf_split_sumLen (term : Char) (s : Str) :
    sumLen (strbuf_split_str term s) = s.length := by
  induction s with
  | nil => simp [strbuf_split_str]
  | cons c rest ih =>
    rw [strbuf_split_str]
    by_cases hc : c = term
    · rw [if_pos hc]
      simp only [sumLen_cons, List.length_cons, List.length_nil, ih]
      omega
    · rw [if_neg hc]
      cases hsplit : strbuf_split_str term rest with
      | nil =>
        rw [hsplit] at ih
        simp only [sumLen_nil] at ih
        simp only [sumLen_cons, sumLen_nil, List.length_cons, List.length_nil]
        omega
      | cons chunk chunks =>
        rw [hsplit] at ih
        simp only [sumLen_cons, List.length_cons] at ih ⊢
        omega

theorem lex3_of_le {a b c a' b' c' : Nat}
    (h : a < a' ∨ (a = a' ∧ (b < b' ∨ (b = b' ∧ c < c')))) :
    Prod.Lex (· < ·) (Prod.Lex (· < ·) (· < ·)) (a, (b, c)) (a', (b', c')) := by
  rcases h with h | ⟨rfl, h | ⟨rfl, h⟩⟩
  · exact Prod.Lex.left _ _ h
  · exact Prod.Lex.right _ (Prod.Lex.left _ _ h)
  · exact Prod.Lex.right _ (Prod.Lex.right _ h)

theorem lex3_fst_lt {a b c a' b' c' : Nat} (h : a < a') :
    Prod.Lex (· < ·) (Prod.Lex (· < ·) (· < ·)) (a, (b, c)) (a', (b', c')) :=
  lex3_of_le (Or.inl h)

theorem lex3_fst_le_snd_lt {a b c a' b' c' : Nat} (h1 : a ≤ a') (h2 : b < b') :
    Prod.Lex (· < ·) (Prod.Lex (· < ·) (· < ·)) (a, (b, c)) (a', (b', c')) := by
  rcases Nat.lt_or_ge a a' with h | h
  · exact lex3_of_le (Or.inl h)
  · exact lex3_of_le (Or.inr ⟨Nat.le_antisymm h1 h, Or.inl h2⟩)

theorem lex3_all_le {a b c a' b' c' : Nat} (h1 : a ≤ a') (h2 : b ≤ b') (h3 : c < c') :
    Prod.Lex (· < ·) (Prod.Lex (· < ·) (· < ·)) (a, (b, c)) (a', (b', c')) := by
  rcases Nat.lt_or_ge a a' with h | h
  · exact lex3_of_le (Or.inl h)
  · rcases Nat.lt_or_ge b b' with hb | hb
    · exact lex3_of_le (Or.inr ⟨Nat.le_antisymm h1 h, Or.inl hb⟩)
    · exact lex3_of_le (Or.inr ⟨Nat.le_antisymm h1 h,
        Or.inr ⟨Nat.le_antisymm h2 hb, h3⟩⟩)

/-- Results of the parsing functions: `none` models a process-terminating
exit (`BUG`, failed `assert`), `some (r, node, errbuf)` an ordinary return
of C result `r` with the node's and error buffer's post-states. -/
abbrev PRes := Option (Nat × FilterOptions × Str)

mutual

/-- Shallow embedding of `gently_parse_list_objects_filter` (lines 31-95):
try each filter kind in order; on the fall-through path emit
`invalid filter-spec` and `memset` the node back to zero.  The external
`get_oid_with_context` resolver (not under `src/`) is the `resolve`
parameter; per the spec its failure is tolerated, leaving
`sparse_oid_value` absent. -/
def gently_parse_list_objects_filter (resolve : Str → Option Str)
    (filter_options : FilterOptions) (arg : Str) (errbuf : Str) : PRes :=
  if filter_options.choice ≠ Choice.LOFC_DISABLED then
    none
  else if arg = "blob:none".toList then
    some (0, { filter_options with choice := Choice.LOFC_BLOB_NONE }, errbuf)
  else
    match skip_prefix "blob:limit=".toList arg with
    | some v0 =>
      match git_parse_ulong v0 with
      | some v =>
        some (0, { filter_options with
                   choice := Choice.LOFC_BLOB_LIMIT
                   blob_limit_value := v }, errbuf)
      | none =>
        some (1, emptyFO,
              errbuf ++ ("invalid filter-spec \x27".toList ++ arg ++ "\x27".toList))
    | none =>
      match skip_prefix "tree:".toList arg with
      | some v0 =>
        match git_parse_ulong v0 with
        | none =>
          some (1, filter_options, errbuf ++ "expected \x27tree:<depth>\x27".toList)
        | some v =>
          some (0, { filter_options with
                     choice := Choice.LOFC_TREE_DEPTH
                     tree_exclude_depth := v }, errbuf)
      | none =>
        match skip_prefix "sparse:oid=".toList arg with
        | some v0 =>
          match resolve v0 with
          | some oid =>
            some (0, { filter_options with
                       choice := Choice.LOFC_SPARSE_OID
                       sparse_oid_value := some oid }, errbuf)
          | none =>
            some (0, { filter_options with choice := Choice.LOFC_SPARSE_OID }, errbuf)
        | none =>
          match skip_prefix "sparse:path=".toList arg with
          | some _ =>
            some (1, filter_options,
                  errbuf ++ "sparse:path filters support has been dropped".toList)
          | none =>
            match h5 : skip_prefix "combine:".toList arg with
            | some v0 => parse_combine_filter resolve filter_options v0 errbuf
            | none =>
              some (1, emptyFO,
                    errbuf ++ ("invalid filter-spec \x27".toList ++ arg ++ "\x27".toList))
termination_by (arg.length, 0, 0)
decreasing_by
  have hlen := skip_prefix_length h5
  have h8 : ("combine:".toList).length = 8 := rfl
  exact lex3_fst_lt (by omega)

/-- Shallow embedding of `parse_combine_filter` (lines 141-179): split the
combine body on `+`, run the subfilter loop, unconditionally set
`LOFC_COMBINE`, and on failure release and `memset` the node. -/
def parse_combine_filter (resolve : Str → Option Str)
    (filter_options : FilterOptions) (arg : Str) (errbuf : Str) : PRes :=
  match hsplit : strbuf_split_str '+' arg with
  | [] => some (1, emptyFO, errbuf ++ "expected something after combine:".toList)
  | t :: rest =>
    match parse_combine_filter_loop resolve filter_options (t :: rest) errbuf with
    | none => none
    | some (r, fo1, err1) =>
      if r ≠ 0 then some (r, emptyFO, err1)
      else some (0, { fo1 with choice := Choice.LOFC_COMBINE }, err1)
termination_by (arg.length + 1, 2, 0)
decreasing_by
  have hsum : sumLen (t :: rest) = arg.length := by
    rw [← hsplit]
    exact strbuf_split_sumLen '+' arg
  exact lex3_fst_le_snd_lt (by omega) (by omega)

/-- The `for` loop of `parse_combine_filter` (lines 156-168): each subspec
that is not the last has its trailing `+` removed (the `assert` that it
ends in `+` is modelled as abort on failure), then is parsed; the loop
stops at the first failing subspec. -/
def parse_combine_filter_loop (resolve : Str → Option Str)
    (filter_options : FilterOptions) (tokens : List Str) (errbuf : Str) : PRes :=
  match tokens with
  | [] => some (0, filter_options, errbuf)
  | t :: rest =>
    match rest with
    | [] =>
      match parse_combine_subfilter resolve filter_options t errbuf with
      | none => none
      | some (0, fo1, err1) => parse_combine_filter_loop resolve fo1 [] err1
      | some (r, fo1, err1) => some (r, fo1, err1)
    | t2 :: rest2 =>
      if t.getLast? = some '+' then
        match parse_combine_subfilter resolve filter_options t.dropLast errbuf with
        | none => none
        | some (0, fo1, err1) => parse_combine_filter_loop resolve fo1 (t2 :: rest2) err1
        | some (r, fo1, err1) => some (r, fo1, err1)
      else none
termination_by (sumLen tokens + 1, 1, tokens.length)
decreasing_by
  all_goals
    apply lex3_of_le
    simp only [sumLen_cons, sumLen_nil, List.length_cons, List.length_nil,
               List.length_dropLast, true_and, and_true]
    omega

/-- Shallow embedding of `parse_combine_subfilter` (lines 117-139): append
a zeroed child slot, percent-decode the token, and — short-circuit `||` —
check for reserved characters in the still-encoded token before parsing
the decoded text into the fresh child.  The C code computes the decoded
text up front (line 131) but only the recursive parse consumes it, so the
pure decode is written inline at its use site. -/
def parse_combine_subfilter (resolve : Str → Option Str)
    (filter_options : FilterOptions) (subspec : Str) (errbuf : Str) : PRes :=
  match has_reserved_character subspec errbuf with
  | (0, err1) =>
    match gently_parse_list_objects_filter resolve emptyFO (url_percent_decode subspec) err1 with
    | none => none
    | some (r, child, err2) =>
      some (r, { filter_options with sub := filter_options.sub ++ [child] }, err2)
  | (r, err1) =>
    some (r, { filter_options with sub := filter_options.sub ++ [emptyFO] }, err1)
termination_by (subspec.length + 1, 0, 0)
decreasing_by
  exact lex3_fst_lt (by have := url_percent_decode_length subspec; omega)

end

/-- Shallow embedding of `parse_list_objects_filter` (lines 181-191): `die`
(modelled `none`) if the node is already populated, capture the raw arg as
`filter_spec` (the `strdup`), parse, and `die` printing the error buffer on
failure.  On success the C function returns 0 with the node populated;
only that node is observable, so the result is `Option FilterOptions`. -/
def parse_list_objects_filter (resolve : Str → Option Str)
    (filter_options : FilterOptions) (arg : Str) : Option FilterOptions :=
  if filter_options.choice ≠ Choice.LOFC_DISABLED then none
  else
    match gently_parse_list_objects_filter resolve
            { filter_options with filter_spec := some arg } arg [] with
    | none => none
    | some (0, fo2, _) => some fo2
    | some (_, _, _) => none

/-- Decimal rendering of the `"%lu"` conversions in
`expand_list_objects_filter_spec`. -/
def decimal (n : Nat) : Str := (Nat.repr n).toList

/-- Shallow embedding of `expand_list_objects_filter_spec` (lines 206-219):
regenerate canonical text for the two numeric kinds, otherwise forward the
stored `filter_spec` (the C code reads `filter->filter_spec` unconditionally
and has defined behaviour only when it is non-NULL; the absent case is
modelled as the empty string). -/
def expand_list_objects_filter_spec (filter : FilterOptions) : Str :=
  if filter.choice = Choice.LOFC_BLOB_LIMIT then
    "blob:limit=".toList ++ decimal filter.blob_limit_value
  else if filter.choice = Choice.LOFC_TREE_DEPTH then
    "tree:".toList ++ decimal filter.tree_exclude_depth
  else filter.filter_spec.getD []

mutual

/-- Shallow embedding of `list_objects_filter_release` (lines 221-234):
free the owned text and oid, release every child depth-first
(`releaseSubs` models the loop over `sub`), free the child array, and
`memset` the node back to zero. -/
def list_objects_filter_release (filter_options : FilterOptions) : FilterOptions :=
  have _released : List FilterOptions := releaseSubs filter_options.sub
  { choice := Choice.LOFC_DISABLED, filter_spec := none, blob_limit_value := 0,
    tree_exclude_depth := 0, sparse_oid_value := none, sub := [] }
termination_by sizeOf filter_options
decreasing_by
  cases filter_options
  simp

/-- The recursive child-release loop of `list_objects_filter_release`
(lines 230-231). -/
def releaseSubs : List FilterOptions → List FilterOptions
  | [] => []
  | x :: xs => list_objects_filter_release x :: releaseSubs xs
termination_by l => sizeOf l
decreasing_by
  all_goals simp
  all_goals omega

end

mutual

/-- Tree invariant: every `LOFC_COMBINE` node in the tree (the node itself
and, recursively, all descendants) has a nonempty child list. -/
def no_empty_combine (fo : FilterOptions) : Bool :=
  (fo.choice != Choice.LOFC_COMBINE || !fo.sub.isEmpty) && no_empty_combine_list fo.sub
termination_by sizeOf fo
decreasing_by
  cases fo
  simp

/-- `no_empty_combine` over a child list. -/
def no_empty_combine_list : List FilterOptions → Bool
  | [] => true
  | x :: xs => no_empty_combine x && no_empty_combine_list xs
termination_by l => sizeOf l
decreasing_by
  all_goals simp
  all_goals omega

end

mutual

/-- Tree invariant: every strict descendant of the node carries no
`filter_spec` text. -/
def subs_unspecced (fo : FilterOptions) : Bool :=
  subs_unspecced_list fo.sub
termination_by sizeOf fo
decreasing_by
  cases fo
  simp

/-- `subs_unspecced` over a child list: each child has no `filter_spec`
and recursively satisfies the same. -/
def subs_unspecced_list : List FilterOptions → Bool
  | [] => true
  | x :: xs => (x.filter_spec.isNone && subs_unspecced x) && subs_unspecced_list xs
termination_by l => sizeOf l
decreasing_by
  all_goals simp
  all_goals omega

end

/-! Support lemmas about the embedded definitions. -/

@[simp]
theorem emptyFO_choice : emptyFO.choice = Choice.LOFC_DISABLED := rfl

@[simp]
theorem emptyFO_filter_spec : emptyFO.filter_spec = none := rfl

@[simp]
theorem emptyFO_blob_limit_value : emptyFO.blob_limit_value = 0 := rfl

@[simp]
theorem emptyFO_tree_exclude_depth : emptyFO.tree_exclude_depth = 0 := rfl

@[simp]
theorem emptyFO_sparse_oid_value : emptyFO.sparse_oid_value = none := rfl

@[simp]
theorem emptyFO_sub : emptyFO.sub = [] := rfl

theorem skip_prefix_append (p s : Str) : skip_prefix p (p ++ s) = some s := by
  induction p with
  | nil => simp [ skip_prefix]
  | cons x xs ih => simp [ skip_prefix, ih]

/-- On failure, `parse_combine_filter` hands back the released and
`memset`-zeroed node. -/
theorem parse_combine_filter_fail_resets (resolve : Str → Option Str)
    (fo : FilterOptions) (arg errbuf : Str) (r : Nat) (fo' : FilterOptions) (err' : Str)
    (h : parse_combine_filter resolve fo arg errbuf = some (r, fo', err'))
    (hr : r ≠ 0) : fo' = emptyFO := by
  rw [parse_combine_filter.eq_def] at h
  split at h
  · simp only [Option.some.injEq, Prod.mk.injEq] at h
    exact h.2.1.symm
  · split at h
    · exact absurd h (by simp)
    · split at h
      · simp only [Option.some.injEq, Prod.mk.injEq] at h
        exact h.2.1.symm
      · simp only [Option.some.injEq, Prod.mk.injEq] at h
        exact absurd h.1.symm hr

/-- On failure against an initially zeroed node,
`gently_parse_list_objects_filter` returns the node still zeroed. -/
theorem gently_fail_resets (resolve : Str → Option Str) (arg errbuf : Str)
    (r : Nat) (fo' : FilterOptions) (err' : Str)
    (h : gently_parse_list_objects_filter resolve emptyFO arg errbuf = some (r, fo', err'))
    (hr : r ≠ 0) : fo' = emptyFO := by
  rw [gently_parse_list_objects_filter.eq_def] at h
  rw [if_neg (by simp)] at h
  split at h
  · simp only [Option.some.injEq, Prod.mk.injEq] at h
    exact absurd h.1.symm hr
  · split at h
    · split at h
      · simp only [Option.some.injEq, Prod.mk.injEq] at h
        exact absurd h.1.symm hr
      · simp only [Option.some.injEq, Prod.mk.injEq] at h
        exact h.2.1.symm
    · split at h
      · split at h
        · simp only [Option.some.injEq, Prod.mk.injEq] at h
          exact h.2.1.symm
        · simp only [Option.some.injEq, Prod.mk.injEq] at h
          exact absurd h.1.symm hr
      · split at h
        · split at h
          · simp only [Option.some.injEq, Prod.mk.injEq] at h
            exact absurd h.1.symm hr
          · simp only [Option.some.injEq, Prod.mk.injEq] at h
            exact absurd h.1.symm hr
        · split at h
          · simp only [Option.some.injEq, Prod.mk.injEq] at h
            exact h.2.1.symm
          · split at h
            · exact parse_combine_filter_fail_resets _ _ _ _ _ _ _ h hr
            · simp only [Option.some.injEq, Prod.mk.injEq] at h
              exact h.2.1.symm

/-- A node as handed to the parser by a top-level entry point: zeroed
except possibly for the captured `filter_spec` text. -/
def preRoot (fs : Option Str) : FilterOptions :=
  { choice := Choice.LOFC_DISABLED, filter_spec := fs, blob_limit_value := 0,
    tree_exclude_depth := 0, sparse_oid_value := none, sub := [] }

/-- A well-formed combine child: no captured text anywhere in its subtree
and no empty combine node in it. -/
def GoodChild (c : FilterOptions) : Prop :=
  c.filter_spec = none ∧ subs_unspecced c = true ∧ no_empty_combine c = true

theorem subs_unspecced_list_of_forall (l : List FilterOptions)
    (h : ∀ c ∈ l, c.filter_spec = none ∧ subs_unspecced c = true) :
    subs_unspecced_list l = true := by
  induction l with
  | nil => simp [subs_unspecced_list]
  | cons x xs ih =>
    have hx := h x (by simp)
    simp [subs_unspecced_list, hx.1, hx.2, ih (fun c hc => h c (by simp [hc])),
          Option.isNone]

theorem no_empty_combine_list_of_forall (l : List FilterOptions)
    (h : ∀ c ∈ l, no_empty_combine c = true) :
    no_empty_combine_list l = true := by
  induction l with
  | nil => simp [no_empty_combine_list]
  | cons x xs ih =>
    simp [no_empty_combine_list, h x (by simp), ih (fun c hc => h c (by simp [hc]))]

/-- The induction hypothesis threaded through the combine machinery: every
sub-token text of length at most `n`, successfully parsed from the zeroed
node, yields a well-formed child. -/
def ChildIH (resolve : Str → Option Str) (n : Nat) : Prop :=
  ∀ s : Str, s.length ≤ n → ∀ err r c err2,
    gently_parse_list_objects_filter resolve emptyFO s err = some (r, c, err2) →
    r = 0 → GoodChild c

theorem ChildIH_mono {resolve : Str → Option Str} {n m : Nat}
    (h : ChildIH resolve m) (hnm : n ≤ m) : ChildIH resolve n :=
  fun s hs => h s (Nat.le_trans hs hnm)

/-- A successful `parse_combine_subfilter` appends exactly one well-formed
child and leaves every other field of the parent alone. -/
theorem subfilter_success_spec (resolve : Str → Option Str)
    (fo : FilterOptions) (t err : Str) (r : Nat) (fo1 : FilterOptions) (err1 : Str)
    (hIH : ChildIH resolve t.length)
    (h : parse_combine_subfilter resolve fo t err = some (r, fo1, err1)) (hr : r = 0) :
    fo1.choice = fo.choice ∧ fo1.filter_spec = fo.filter_spec ∧
    ∃ c, fo1.sub = fo.sub ++ [c] ∧ GoodChild c := by
  rw [parse_combine_subfilter.eq_def] at h
  split at h
  · rename_i err1' hres
    split at h
    · exact absurd h (by simp)
    · rename_i r' child err2' hchild
      simp only [Option.some.injEq, Prod.mk.injEq] at h
      obtain ⟨hr', hfo1, herr1⟩ := h
      subst hfo1
      refine ⟨rfl, rfl, child, rfl, ?_⟩
      exact hIH (url_percent_decode t) (url_percent_decode_length t) err1' r' child err2'
        hchild (by omega)
  · rename_i rv ev hdis hres
    simp only [Option.some.injEq, Prod.mk.injEq] at h
    obtain ⟨h1, -, -⟩ := h
    exact absurd (h1.trans hr) hdis

/-- A successful run of the subfilter loop appends one well-formed child
per token and preserves the parent's captured text. -/
theorem loop_success_spec (resolve : Str → Option Str) :
    ∀ (tokens : List Str) (fo : FilterOptions) (err : Str)
      (fo2 : FilterOptions) (err2 : Str),
    ChildIH resolve (sumLen tokens) →
    parse_combine_filter_loop resolve fo tokens err = some (0, fo2, err2) →
    fo2.choice = fo.choice ∧ fo2.filter_spec = fo.filter_spec ∧
    ∃ kids, fo2.sub = fo.sub ++ kids ∧ kids.length = tokens.length ∧
      ∀ c ∈ kids, GoodChild c := by
  intro tokens
  induction tokens with
  | nil =>
    intro fo err fo2 err2 _ h
    rw [parse_combine_filter_loop.eq_def] at h
    simp only [Option.some.injEq, Prod.mk.injEq] at h
    obtain ⟨-, hfo, -⟩ := h
    subst hfo
    exact ⟨rfl, rfl, [], by simp, by simp, by simp⟩
  | cons t rest ih =>
    intro fo err fo2 err2 hIH h
    rw [parse_combine_filter_loop.eq_def] at h
    cases rest with
    | nil =>
      simp only at h
      split at h
      · exact absurd h (by simp)
      · rename_i fo1 err1 hsub
        rw [parse_combine_filter_loop.eq_def] at h
        simp only [Option.some.injEq, Prod.mk.injEq] at h
        obtain ⟨-, hfo, -⟩ := h
        subst hfo
        have hspec := subfilter_success_spec resolve fo t err 0 fo1 err1
          (ChildIH_mono hIH (by simp)) hsub rfl
        obtain ⟨hc, hf, c, hsub1, hgood⟩ := hspec
        exact ⟨hc, hf, [c], by simp [hsub1], by simp, by simp [hgood]⟩
      · rename_i rv fo1 err1 hdis hsub
        simp only [Option.some.injEq, Prod.mk.injEq] at h
        obtain ⟨h1, -, -⟩ := h
        exact absurd h1 hdis
    | cons t2 rest2 =>
      simp only at h
      split at h
      · split at h
        · exact absurd h (by simp)
        · rename_i fo1 err1 hsub
          have hspec := subfilter_success_spec resolve fo t.dropLast err 0 fo1 err1
            (ChildIH_mono hIH (by
              have hd := List.length_dropLast t
              simp only [sumLen_cons]
              omega)) hsub rfl
          obtain ⟨hc, hf, c, hsub1, hgood⟩ := hspec
          have hrest := ih fo1 err1 fo2 err2
            (ChildIH_mono hIH (by simp only [sumLen_cons]; omega)) h
          obtain ⟨hc2, hf2, kids, hsub2, hlen2, hgood2⟩ := hrest
          refine ⟨hc2.trans hc, hf2.trans hf, c :: kids, ?_, by simp [hlen2], ?_⟩
          · rw [hsub2, hsub1]
            simp
          · intro x hx
            rcases List.mem_cons.mp hx with hx | hx
            · exact hx ▸ hgood
            · exact hgood2 x hx
        · rename_i rv fo1 err1 hdis hsub
          simp only [Option.some.injEq, Prod.mk.injEq] at h
          obtain ⟨h1, -, -⟩ := h
          exact absurd h1 hdis
      · exact absurd h (by simp)

/-- A successful `parse_combine_filter` yields a `LOFC_COMBINE` node with a
nonempty list of well-formed children appended, preserving the captured
text. -/
theorem combine_success_spec (resolve : Str → Option Str)
    (fo : FilterOptions) (arg err : Str) (fo' : FilterOptions) (err2 : Str)
    (hIH : ChildIH resolve arg.length)
    (h : parse_combine_filter resolve fo arg err = some (0, fo', err2)) :
    fo'.choice = Choice.LOFC_COMBINE ∧ fo'.filter_spec = fo.filter_spec ∧
    ∃ kids, fo'.sub = fo.sub ++ kids ∧ kids ≠ [] ∧ ∀ c ∈ kids, GoodChild c := by
  rw [parse_combine_filter.eq_def] at h
  split at h
  · exact absurd h (by simp)
  · rename_i t rest hsplit
    split at h
    · exact absurd h (by simp)
    · rename_i r' fo1 err1 hloop
      split at h
      · rename_i hrne
        simp only [Option.some.injEq, Prod.mk.injEq] at h
        exact absurd h.1 hrne
      · rename_i hr0
        simp only [ne_eq, Decidable.not_not] at hr0
        subst hr0
        simp only [Option.some.injEq, Prod.mk.injEq] at h
        obtain ⟨-, hfo, -⟩ := h
        subst hfo
        have hchain : ChildIH resolve (sumLen (t :: rest)) := by
          rw [← hsplit, strbuf_split_sumLen]
          exact hIH
        have hspec := loop_success_spec resolve (t :: rest) fo err fo1 err1 hchain hloop
        obtain ⟨hc, hf, kids, hsub, hlen, hgood⟩ := hspec
        have hkne : kids ≠ [] := by
          intro hk
          rw [hk] at hlen
          simp at hlen
        exact ⟨rfl, hf, kids, hsub, hkne, hgood⟩

/-- Success-side invariant of the parser: from a node that is zeroed except
for its captured text, a successful parse preserves the captured text,
gives no descendant a captured text of its own, and never yields an empty
combine node anywhere in the tree. -/
theorem gently_success_spec (resolve : Str → Option Str) :
    ∀ (n : Nat) (arg : Str), arg.length ≤ n → ∀ (fs : Option Str) (err : Str)
      (fo' : FilterOptions) (err2 : Str),
    gently_parse_list_objects_filter resolve (preRoot fs) arg err = some (0, fo', err2) →
    fo'.filter_spec = fs ∧ subs_unspecced fo' = true ∧ no_empty_combine fo' = true := by
  intro n
  induction n using Nat.strong_induction_on with
  | _ n ihn =>
    intro arg hlen fs err fo' err2 h
    rw [gently_parse_list_objects_filter.eq_def] at h
    rw [if_neg (by simp [preRoot])] at h
    split at h
    · simp only [Option.some.injEq, Prod.mk.injEq] at h
      obtain ⟨-, hfo, -⟩ := h
      subst hfo
      exact ⟨by simp [preRoot], by simp [preRoot, subs_unspecced, subs_unspecced_list],
             by simp [preRoot, no_empty_combine, no_empty_combine_list]⟩
    · split at h
      · split at h
        · simp only [Option.some.injEq, Prod.mk.injEq] at h
          obtain ⟨-, hfo, -⟩ := h
          subst hfo
          exact ⟨by simp [preRoot], by simp [preRoot, subs_unspecced, subs_unspecced_list],
                 by simp [preRoot, no_empty_combine, no_empty_combine_list]⟩
        · exact absurd h (by simp)
      · split at h
        · split at h
          · exact absurd h (by simp)
          · simp only [Option.some.injEq, Prod.mk.injEq] at h
            obtain ⟨-, hfo, -⟩ := h
            subst hfo
            exact ⟨by simp [preRoot], by simp [preRoot, subs_unspecced, subs_unspecced_list],
                   by simp [preRoot, no_empty_combine, no_empty_combine_list]⟩
        · split at h
          · split at h
            · simp only [Option.some.injEq, Prod.mk.injEq] at h
              obtain ⟨-, hfo, -⟩ := h
              subst hfo
              exact ⟨by simp [preRoot], by simp [preRoot, subs_unspecced, subs_unspecced_list],
                     by simp [preRoot, no_empty_combine, no_empty_combine_list]⟩
            · simp only [Option.some.injEq, Prod.mk.injEq] at h
              obtain ⟨-, hfo, -⟩ := h
              subst hfo
              exact ⟨by simp [preRoot], by simp [preRoot, subs_unspecced, subs_unspecced_list],
                     by simp [preRoot, no_empty_combine, no_empty_combine_list]⟩
          · split at h
            · exact absurd h (by simp)
            · split at h
              · rename_i v0 hv0
                have hlenv : arg.length = 8 + v0.length := by
                  have := skip_prefix_length hv0
                  simpa using this
                have hchild : ChildIH resolve v0.length := by
                  intro s hs err' r c err2' hparse hr0
                  subst hr0
                  have hEM : emptyFO = preRoot none := rfl
                  rw [hEM] at hparse
                  exact ihn s.length (by omega) s (le_refl _) none err' c err2' hparse
                have hspec := combine_success_spec resolve (preRoot fs) v0 err fo' err2
                  hchild h
                obtain ⟨hc, hf, kids, hsub, hne, hgood⟩ := hspec
                refine ⟨by rw [hf]; simp [preRoot], ?_, ?_⟩
                · rw [subs_unspecced]
                  rw [hsub]
                  simp only [preRoot, List.nil_append]
                  exact subs_unspecced_list_of_forall kids
                    (fun c hc2 => ⟨(hgood c hc2).1, (hgood c hc2).2.1⟩)
                · rw [no_empty_combine]
                  rw [hc, hsub]
                  simp only [preRoot, List.nil_append]
                  have h1 : no_empty_combine_list kids = true :=
                    no_empty_combine_list_of_forall kids (fun c hc2 => (hgood c hc2).2.2)
                  simp [h1, List.isEmpty_iff, hne]
              · exact absurd h (by simp)

/-- Parsing the empty combine sub-token fails: it reaches the spec parser
and is rejected as an invalid filter-spec. -/
theorem subfilter_empty_token (resolve : Str → Option Str)
    (fo : FilterOptions) (err : Str) :
    parse_combine_subfilter resolve fo [] err
      = some (1, { fo with sub := fo.sub ++ [emptyFO] },
              err ++ "invalid filter-spec \x27\x27".toList) := by
  simp [parse_combine_subfilter, has_reserved_character, url_percent_decode,
        gently_parse_list_objects_filter, skip_prefix, emptyFO]

/-- Parsing the sub-token `+` fails: `+` is not a reserved character, it
decodes to itself, and the spec parser rejects it as an invalid
filter-spec. -/
theorem subfilter_plus_token (resolve : Str → Option Str)
    (fo : FilterOptions) (err : Str) :
    parse_combine_subfilter resolve fo ['+'] err
      = some (1, { fo with sub := fo.sub ++ [emptyFO] },
              err ++ "invalid filter-spec \x27+\x27".toList) := by
  simp [parse_combine_subfilter, has_reserved_character, url_percent_decode,
        gently_parse_list_objects_filter, skip_prefix, emptyFO, RESERVED_NON_WS,
        hexVal]

/-- If the token list contains the bare `+` token (the remains of a leading
or doubled separator), the subfilter loop cannot succeed. -/
theorem loop_plus_token_not_success (resolve : Str → Option Str) :
    ∀ (tokens : List Str) (fo : FilterOptions) (err : Str), ['+'] ∈ tokens →
    ∀ (fo2 : FilterOptions) (err2 : Str),
      parse_combine_filter_loop resolve fo tokens err ≠ some (0, fo2, err2) := by
  intro tokens
  induction tokens with
  | nil =>
    intro fo err hmem
    exact absurd hmem (by simp)
  | cons t rest ih =>
    intro fo err hmem fo2 err2 hcon
    rw [parse_combine_filter_loop.eq_def] at hcon
    cases rest with
    | nil =>
      have ht : t = ['+'] := by
        rcases List.mem_cons.mp hmem with h1 | h1
        · exact h1.symm
        · exact absurd h1 (by simp)
      subst ht
      simp only at hcon
      rw [subfilter_plus_token] at hcon
      simp at hcon
    | cons t2 rest2 =>
      simp only at hcon
      rcases List.mem_cons.mp hmem with h1 | h1
      · subst h1
        rw [if_pos (by simp)] at hcon
        rw [show (['+'] : Str).dropLast = [] from rfl] at hcon
        rw [subfilter_empty_token] at hcon
        simp at hcon
      · split at hcon
        · split at hcon
          · exact absurd hcon (by simp)
          · rename_i fo1 err1 hsub
            exact ih fo1 err1 h1 fo2 err2 hcon
          · rename_i rv fo1 err1 hdis hsub
            simp only [Option.some.injEq, Prod.mk.injEq] at hcon
            exact absurd hcon.1 hdis
        · exact absurd hcon (by simp)

/-- Splitting a string that begins with the separator produces the bare
`+` token first. -/
theorem split_head_plus (z : Str) :
    ['+'] ∈ strbuf_split_str '+' ('+' :: z) := by
  rw [strbuf_split_str]
  simp

/-- Splitting a string containing two adjacent separators produces the
bare `+` token somewhere. -/
theorem split_mem_plus : ∀ (n : Nat) (x y : Str), x.length ≤ n →
    ['+'] ∈ strbuf_split_str '+' (x ++ '+' :: '+' :: y) := by
  intro n
  induction n using Nat.strong_induction_on with
  | _ n ihn =>
    intro x y hxn
    cases x with
    | nil =>
      simp only [List.nil_append]
      rw [strbuf_split_str]
      simp
    | cons c x' =>
      simp only [List.cons_append]
      rw [strbuf_split_str]
      by_cases hc : c = '+'
      · subst hc
        rw [if_pos rfl]
        exact List.mem_cons_self _ _
      · rw [if_neg hc]
        have hx'n : x'.length < n := by
          simp only [List.length_cons] at hxn
          omega

        have hmem := ihn x'.length hx'n x' y (le_refl _)
        cases hsp : strbuf_split_str '+' (x' ++ '+' :: '+' :: y) with
        | nil =>
          rw [hsp] at hmem
          exact absurd hmem (by simp)
        | cons chunk chunks =>
          rw [hsp] at hmem
          show ['+'] ∈ (c :: chunk) :: chunks
          rcases List.mem_cons.mp hmem with h1 | h1
          · apply List.mem_cons_of_mem
            cases x' with
            | nil =>
              simp only [List.nil_append] at hsp
              rw [strbuf_split_str] at hsp
              rw [if_pos rfl] at hsp
              obtain ⟨-, h3⟩ := List.cons_eq_cons.mp hsp
              rw [← h3]
              exact split_head_plus y
            | cons c' x'' =>
              by_cases hc' : c' = '+'
              · subst hc'
                simp only [List.cons_append] at hsp
                rw [strbuf_split_str] at hsp
                rw [if_pos rfl] at hsp
                obtain ⟨-, h3⟩ := List.cons_eq_cons.mp hsp
                have hmem2 : ['+'] ∈ strbuf_split_str '+' (x'' ++ '+' :: '+' :: y) :=
                  ihn x''.length (by simp only [List.length_cons] at hxn; omega) x'' y
                    (le_refl _)
                rw [← h3]
                exact hmem2
              · simp only [List.cons_append] at hsp
                rw [strbuf_split_str] at hsp
                rw [if_neg hc'] at hsp
                exfalso
                cases hsp2 : strbuf_split_str '+' (x'' ++ '+' :: '+' :: y) with
                | nil =>
                  rw [hsp2] at hsp
                  simp only at hsp
                  obtain ⟨h4, -⟩ := List.cons_eq_cons.mp hsp
                  rw [← h4] at h1
                  simp at h1
                  exact hc' h1.symm
                | cons ch chs =>
                  rw [hsp2] at hsp
                  simp only at hsp
                  obtain ⟨h4, -⟩ := List.cons_eq_cons.mp hsp
                  rw [← h4] at h1
                  simp at h1
                  exact hc' h1.1.symm
          · exact List.mem_cons_of_mem _ h1

/-- The validator rejects exactly the tokens holding a byte that is a
control character, space, or reserved punctuation. -/
theorem has_reserved_character_iff (t : Str) : ∀ err : Str,
    ((has_reserved_character t err).1 = 1 ↔
      ∃ c ∈ t, c.toNat ≤ 32 ∨ c ∈ RESERVED_NON_WS) := by
  induction t with
  | nil =>
    intro err
    simp [has_reserved_character]
  | cons c rest ih =>
    intro err
    rw [has_reserved_character]
    by_cases hc : (c.toNat ≤ 32 || RESERVED_NON_WS.contains c) = true
    · rw [if_pos hc]
      simp only [true_iff]
      refine ⟨c, by simp, ?_⟩
      simpa [List.elem_iff] using hc
    · rw [if_neg hc]
      rw [ih err]
      constructor
      · rintro ⟨d, hd, hoff⟩
        exact ⟨d, by simp [hd], hoff⟩
      · rintro ⟨d, hd, hoff⟩
        rcases List.mem_cons.mp hd with rfl | hd2
        · exact absurd (by simpa [List.elem_iff] using hoff) hc
        · exact ⟨d, hd2, hoff⟩

/-- When rejecting, the validator's message names the first offending
character of the token. -/
theorem has_reserved_character_first (pre : Str) : ∀ (t err : Str) (c : Char)
    (post : Str), t = pre ++ c :: post →
    (∀ d ∈ pre, ¬(d.toNat ≤ 32 ∨ d ∈ RESERVED_NON_WS)) →
    (c.toNat ≤ 32 ∨ c ∈ RESERVED_NON_WS) →
    has_reserved_character t err
      = (1, err ++ ("must escape char in sub-filter-spec: \x27".toList
                     ++ [c] ++ "\x27".toList)) := by
  induction pre with
  | nil =>
    intro t err c post ht hclean hoff
    subst ht
    simp only [List.nil_append]
    rw [has_reserved_character]
    rw [if_pos (by simpa [List.elem_iff] using hoff)]
  | cons d pre' ih =>
    intro t err c post ht hclean hoff
    subst ht
    simp only [List.cons_append]
    rw [has_reserved_character]
    rw [if_neg (by
      have hd := hclean d (by simp)
      simpa [List.elem_iff] using hd)]
    exact ih _ err c post rfl (fun e he => hclean e (by simp [he])) hoff

/-- A `blob:limit=` spec whose numeric literal is rejected falls through to
the generic `invalid filter-spec` message, which echoes the whole spec. -/
theorem gently_blob_limit_bad (resolve : Str → Option Str) (s err : Str)
    (hbad : git_parse_ulong s = none) :
    gently_parse_list_objects_filter resolve emptyFO ("blob:limit=".toList ++ s) err
      = some (1, emptyFO,
              err ++ ("invalid filter-spec \x27".toList
                       ++ ("blob:limit=".toList ++ s) ++ "\x27".toList)) := by
  have h1 : ("blob:limit=".toList ++ s) ≠ "blob:none".toList := by
    intro hcon
    have := congrArg List.length hcon
    simp at this
  rw [gently_parse_list_objects_filter.eq_def]
  rw [if_neg (by simp), if_neg h1, skip_prefix_append]
  simp only [hbad]

/-- A `tree:` spec whose numeric literal is rejected produces the fixed
`expected tree depth` message, which does not mention the literal. -/
theorem gently_tree_bad (resolve : Str → Option Str) (s err : Str)
    (hbad : git_parse_ulong s = none) :
    gently_parse_list_objects_filter resolve emptyFO ("tree:".toList ++ s) err
      = some (1, emptyFO, err ++ "expected \x27tree:<depth>\x27".toList) := by
  have h1 : ("tree:".toList ++ s) ≠ "blob:none".toList := by
    intro hcon
    have := congrArg List.head? hcon
    simp at this
  have h2 : skip_prefix "blob:limit=".toList ("tree:".toList ++ s) = none := by
    simp [ skip_prefix]
  rw [gently_parse_list_objects_filter.eq_def]
  rw [if_neg (by simp), if_neg h1, h2, skip_prefix_append]
  simp only [hbad]


/-- Recursive release maps each child through the release function. -/
theorem releaseSubs_map (l : List FilterOptions) :
    releaseSubs l = l.map list_objects_filter_release := by
  induction l with
  | nil => simp [releaseSubs]
  | cons x xs ih => simp [releaseSubs, ih]

/-- Release always hands back the all-zero node. -/
theorem release_eq_empty (fo : FilterOptions) :
    list_objects_filter_release fo = emptyFO := by
  simp [list_objects_filter_release, emptyFO]

/-- The node produced by the top-level parse of `blob:none`. -/
def blobNoneRoot : FilterOptions :=
  { choice := Choice.LOFC_BLOB_NONE, filter_spec := some "blob:none".toList,
    blob_limit_value := 0, tree_exclude_depth := 0, sparse_oid_value := none,
    sub := [] }

/-- The node produced by a non-capturing parse of `blob:none` (as for a
combine child). -/
def blobNoneChild : FilterOptions :=
  { choice := Choice.LOFC_BLOB_NONE, filter_spec := none, blob_limit_value := 0,
    tree_exclude_depth := 0, sparse_oid_value := none, sub := [] }

/-- A `tree:5` node with its captured text. -/
def treeDepth5 : FilterOptions :=
  { choice := Choice.LOFC_TREE_DEPTH, filter_spec := some "tree:5".toList,
    blob_limit_value := 0, tree_exclude_depth := 5, sparse_oid_value := none,
    sub := [] }

/-- The node produced by the top-level parse of `blob:limit=007`. -/
def blobLimit007 : FilterOptions :=
  { choice := Choice.LOFC_BLOB_LIMIT, filter_spec := some "blob:limit=007".toList,
    blob_limit_value := 7, tree_exclude_depth := 0, sparse_oid_value := none,
    sub := [] }

/-! The claims. -/

/-- C1: parsing `combine:blob:none+tree:1` succeeds with kind
`LOFC_COMBINE` and exactly two children, in left-to-right input order: the
first child of kind `LOFC_BLOB_NONE`, the second of kind
`LOFC_TREE_DEPTH` (with depth 1). -/
theorem C1_combine_order (resolve : Str → Option Str) :
    parse_list_objects_filter resolve emptyFO "combine:blob:none+tree:1".toList
      = some { choice := Choice.LOFC_COMBINE,
               filter_spec := some "combine:blob:none+tree:1".toList,
               blob_limit_value := 0, tree_exclude_depth := 0,
               sparse_oid_value := none,
               sub := [{ choice := Choice.LOFC_BLOB_NONE, filter_spec := none,
                         blob_limit_value := 0, tree_exclude_depth := 0,
                         sparse_oid_value := none, sub := [] },
                       { choice := Choice.LOFC_TREE_DEPTH, filter_spec := none,
                         blob_limit_value := 0, tree_exclude_depth := 1,
                         sparse_oid_value := none, sub := [] }] } := by
  simp [parse_list_objects_filter, gently_parse_list_objects_filter,
        parse_combine_filter, parse_combine_filter_loop, parse_combine_subfilter,
        skip_prefix, git_parse_ulong, url_percent_decode, has_reserved_character,
        strbuf_split_str, RESERVED_NON_WS, hexVal, emptyFO]

/-- C2: for every input string, if parsing into an initially zeroed
(unkinded) node fails, the node comes back fully zeroed — no field, child
sequence, or numeric payload survives. -/
theorem C2_failure_resets_node (resolve : Str → Option Str) (arg errbuf : Str)
    (r : Nat) (fo2 : FilterOptions) (err2 : Str)
    (h : gently_parse_list_objects_filter resolve emptyFO arg errbuf
           = some (r, fo2, err2))
    (hr : r ≠ 0) : fo2 = emptyFO :=
  gently_fail_resets resolve arg errbuf r fo2 err2 h hr

/-- Witness for C2 at the failing input `bogus`. -/
theorem C2_failure_resets_node_witness : emptyFO = emptyFO :=
  C2_failure_resets_node (fun _ => none) "bogus".toList [] 1 emptyFO
    "invalid filter-spec \x27bogus\x27".toList
    (by simp [gently_parse_list_objects_filter, skip_prefix, git_parse_ulong,
              emptyFO])
    (by decide)

/-- C3 counterexample: the claim says every successfully constructed node,
including combine children, carries `original_text`; but the child of this
successfully parsed combine node has `filter_spec = none`. -/
theorem C3_counterexample :
    parse_list_objects_filter (fun _ => none) emptyFO "combine:blob:none".toList
      = some { choice := Choice.LOFC_COMBINE,
               filter_spec := some "combine:blob:none".toList,
               blob_limit_value := 0, tree_exclude_depth := 0,
               sparse_oid_value := none,
               sub := [{ choice := Choice.LOFC_BLOB_NONE, filter_spec := none,
                         blob_limit_value := 0, tree_exclude_depth := 0,
                         sparse_oid_value := none, sub := [] }] } := by
  simp [parse_list_objects_filter, gently_parse_list_objects_filter,
        parse_combine_filter, parse_combine_filter_loop, parse_combine_subfilter,
        skip_prefix, git_parse_ulong, url_percent_decode, has_reserved_character,
        strbuf_split_str, RESERVED_NON_WS, hexVal, emptyFO]

/-- C3 amended: only the root node receives `original_text` (set
unconditionally by the top-level entry point before parsing and still
present after a successful parse); children of a `COMBINE` node never
carry an `original_text` of their own. -/
theorem C3_amended_root_text_only (resolve : Str → Option Str) (arg : Str)
    (fo2 : FilterOptions)
    (h : parse_list_objects_filter resolve emptyFO arg = some fo2) :
    fo2.filter_spec = some arg ∧ subs_unspecced fo2 = true := by
  simp only [parse_list_objects_filter] at h
  rw [if_neg (by simp)] at h
  cases hg : gently_parse_list_objects_filter resolve
      { emptyFO with filter_spec := some arg } arg [] with
  | none =>
    rw [hg] at h
    simp at h
  | some res =>
    obtain (⟨r, fo3, err3⟩) := res
    rw [hg] at h
    cases r with
    | zero =>
      simp at h
      subst h
      have hEQ : ({ emptyFO with filter_spec := some arg } : FilterOptions)
          = preRoot (some arg) := rfl
      rw [hEQ] at hg
      have hres := gently_success_spec resolve arg.length arg (le_refl _)
        (some arg) [] fo3 err3 hg
      exact ⟨hres.1, hres.2.1⟩
    | succ n =>
      simp at h

/-- Witness for C3 amended at the input `blob:none`. -/
theorem C3_amended_root_text_only_witness :
    blobNoneRoot.filter_spec = some "blob:none".toList ∧
    subs_unspecced blobNoneRoot = true :=
  C3_amended_root_text_only (fun _ => none) "blob:none".toList blobNoneRoot
    (by simp [parse_list_objects_filter, gently_parse_list_objects_filter,
              skip_prefix, emptyFO, blobNoneRoot])

/-- C7: release is idempotent and recursively total: one release already
returns the fully empty node (indistinguishable from a freshly constructed
one), releasing twice gives the same result, and the child loop releases
every direct child (hence, recursively, every descendant). -/
theorem C7_release_idempotent (fo : FilterOptions) :
    list_objects_filter_release fo = emptyFO ∧
    list_objects_filter_release (list_objects_filter_release fo)
      = list_objects_filter_release fo ∧
    releaseSubs fo.sub = fo.sub.map list_objects_filter_release :=
  ⟨release_eq_empty fo, by simp [release_eq_empty], releaseSubs_map fo.sub⟩


/-- C4: the reserved-character validation is applied to the still-encoded
token — whenever the validator rejects, the subfilter's outcome is the
validator's error alone, with the child slot left zeroed and no influence
from the decoded text; concretely, `combine:tree :1` fails on the
unescaped space while `combine:tree%3A1` succeeds because the encoded
colon passes the pre-decode check. -/
theorem C4_validation_on_encoded_token :
    (∀ (resolve : Str → Option Str) (fo : FilterOptions) (t err : Str),
       (has_reserved_character t err).1 = 1 →
       parse_combine_subfilter resolve fo t err
         = some (1, { fo with sub := fo.sub ++ [emptyFO] },
                 (has_reserved_character t err).2)) ∧
    (∀ (resolve : Str → Option Str) (err : Str),
       gently_parse_list_objects_filter resolve emptyFO "combine:tree :1".toList err
         = some (1, emptyFO,
                 err ++ "must escape char in sub-filter-spec: \x27 \x27".toList)) ∧
    (∀ (resolve : Str → Option Str) (err : Str),
       gently_parse_list_objects_filter resolve emptyFO "combine:tree%3A1".toList err
         = some (0, { choice := Choice.LOFC_COMBINE, filter_spec := none,
                      blob_limit_value := 0, tree_exclude_depth := 0,
                      sparse_oid_value := none,
                      sub := [{ choice := Choice.LOFC_TREE_DEPTH,
                                filter_spec := none, blob_limit_value := 0,
                                tree_exclude_depth := 1, sparse_oid_value := none,
                                sub := [] }] }, err)) := by
  refine ⟨?_, ?_, ?_⟩
  · intro resolve fo t err h1
    rw [parse_combine_subfilter.eq_def]
    cases hres : has_reserved_character t err with
    | mk rv ev =>
      rw [hres] at h1
      simp only at h1
      subst h1
      simp
  · intro resolve err
    simp [gently_parse_list_objects_filter, parse_combine_filter,
          parse_combine_filter_loop, parse_combine_subfilter, skip_prefix,
          git_parse_ulong, url_percent_decode, has_reserved_character,
          strbuf_split_str, RESERVED_NON_WS, hexVal, emptyFO]
  · intro resolve err
    simp [gently_parse_list_objects_filter, parse_combine_filter,
          parse_combine_filter_loop, parse_combine_subfilter, skip_prefix,
          git_parse_ulong, url_percent_decode, has_reserved_character,
          strbuf_split_str, RESERVED_NON_WS, hexVal, emptyFO]

/-- Witness for C4 at the rejected token consisting of a single space. -/
theorem C4_validation_on_encoded_token_witness :
    parse_combine_subfilter (fun _ => none) emptyFO " ".toList []
      = some (1, { choice := Choice.LOFC_DISABLED, filter_spec := none,
                   blob_limit_value := 0, tree_exclude_depth := 0,
                   sparse_oid_value := none, sub := [emptyFO] },
              "must escape char in sub-filter-spec: \x27 \x27".toList) := by
  have h := C4_validation_on_encoded_token.1 (fun _ => none) emptyFO " ".toList []
    (by decide)
  rw [h]
  simp [has_reserved_character, RESERVED_NON_WS, emptyFO]

/-- C5 counterexample: for the non-numeric literal `abc`, the `tree:`
parse fails with the fixed message `expected tree-depth`, which does not
echo the offending literal. -/
theorem C5_counterexample :
    gently_parse_list_objects_filter (fun _ => none) emptyFO "tree:abc".toList []
        = some (1, emptyFO, "expected \x27tree:<depth>\x27".toList) ∧
    ¬ ("abc".toList <:+: "expected \x27tree:<depth>\x27".toList) := by
  constructor
  · simp [gently_parse_list_objects_filter, skip_prefix, git_parse_ulong, emptyFO]
  · decide

/-- C5 amended: a rejected numeric literal makes both `blob:limit=` and
`tree:` parses fail; the `blob:limit=` failure echoes the literal (inside
the full spec quoted by `invalid filter-spec`), while the `tree:` failure
produces the fixed message `expected tree-depth` without the literal. -/
theorem C5_amended_uint_errors (resolve : Str → Option Str) (s err : Str)
    (hbad : git_parse_ulong s = none) :
    (gently_parse_list_objects_filter resolve emptyFO
        ("blob:limit=".toList ++ s) err
       = some (1, emptyFO,
               err ++ ("invalid filter-spec \x27".toList
                        ++ ("blob:limit=".toList ++ s) ++ "\x27".toList)) ∧
     s <:+: err ++ ("invalid filter-spec \x27".toList
                        ++ ("blob:limit=".toList ++ s) ++ "\x27".toList)) ∧
    gently_parse_list_objects_filter resolve emptyFO ("tree:".toList ++ s) err
       = some (1, emptyFO, err ++ "expected \x27tree:<depth>\x27".toList) := by
  refine ⟨⟨gently_blob_limit_bad resolve s err hbad, ?_⟩,
          gently_tree_bad resolve s err hbad⟩
  refine ⟨err ++ "invalid filter-spec \x27".toList ++ "blob:limit=".toList,
          "\x27".toList, ?_⟩
  simp

/-- Witness for C5 amended at the literal `abc`. -/
theorem C5_amended_uint_errors_witness :
    gently_parse_list_objects_filter (fun _ => none) emptyFO
        "blob:limit=abc".toList []
      = some (1, emptyFO, "invalid filter-spec \x27blob:limit=abc\x27".toList) := by
  have h := (C5_amended_uint_errors (fun _ => none) "abc".toList []
    (by decide)).1.1
  simpa using h

/-- C6: parsing `combine:` fails with the empty-combine-body message, and
no successfully parsed tree reachable from the zeroed node contains a
`LOFC_COMBINE` node with an empty child sequence. -/
theorem C6_empty_combine_body :
    (∀ (resolve : Str → Option Str) (err : Str),
       gently_parse_list_objects_filter resolve emptyFO "combine:".toList err
         = some (1, emptyFO, err ++ "expected something after combine:".toList)) ∧
    (∀ (resolve : Str → Option Str) (arg err : Str) (fo2 : FilterOptions)
       (err2 : Str),
       gently_parse_list_objects_filter resolve emptyFO arg err
         = some (0, fo2, err2) →
       no_empty_combine fo2 = true) := by
  constructor
  · intro resolve err
    simp [gently_parse_list_objects_filter, parse_combine_filter, skip_prefix,
          strbuf_split_str, emptyFO]
  · intro resolve arg err fo2 err2 h
    have hEQ : (emptyFO : FilterOptions) = preRoot none := rfl
    rw [hEQ] at h
    exact (gently_success_spec resolve arg.length arg (le_refl _) none err
      fo2 err2 h).2.2

/-- Witness for C6 at the input `blob:none`. -/
theorem C6_empty_combine_body_witness :
    no_empty_combine blobNoneChild = true :=
  C6_empty_combine_body.2 (fun _ => none) "blob:none".toList [] blobNoneChild []
    (by simp [gently_parse_list_objects_filter, skip_prefix, emptyFO,
              blobNoneChild])

/-- C8: expand canonicalizes the two numeric kinds and passes everything
else through: `blob:limit=007` parses to stored value 7 and expands to
`blob:limit=7`; a `LOFC_TREE_DEPTH` node expands to `tree:` followed by
the decimal depth; every other kind expands to the stored `filter_spec`
verbatim. -/
theorem C8_expand_canonicalizes :
    (∀ resolve : Str → Option Str,
       parse_list_objects_filter resolve emptyFO "blob:limit=007".toList
           = some blobLimit007 ∧
       expand_list_objects_filter_spec blobLimit007 = "blob:limit=7".toList) ∧
    (∀ fo : FilterOptions, fo.choice = Choice.LOFC_TREE_DEPTH →
       expand_list_objects_filter_spec fo
         = "tree:".toList ++ decimal fo.tree_exclude_depth) ∧
    (∀ (fo : FilterOptions) (s : Str), fo.choice ≠ Choice.LOFC_BLOB_LIMIT →
       fo.choice ≠ Choice.LOFC_TREE_DEPTH → fo.filter_spec = some s →
       expand_list_objects_filter_spec fo = s) := by
  refine ⟨?_, ?_, ?_⟩
  · intro resolve
    constructor
    · simp [parse_list_objects_filter, gently_parse_list_objects_filter,
            skip_prefix, git_parse_ulong, emptyFO, blobLimit007]
    · simp [expand_list_objects_filter_spec, blobLimit007, decimal]
      decide
  · intro fo hch
    simp [expand_list_objects_filter_spec, hch]
  · intro fo s h1 h2 h3
    simp only [expand_list_objects_filter_spec]
    rw [if_neg h1, if_neg h2, h3]
    rfl

/-- Witness for C8 at a depth-5 tree node and the passthrough `blob:none`
node. -/
theorem C8_expand_canonicalizes_witness :
    expand_list_objects_filter_spec treeDepth5 = "tree:5".toList ∧
    expand_list_objects_filter_spec blobNoneRoot = "blob:none".toList := by
  constructor
  · have h := C8_expand_canonicalizes.2.1 treeDepth5 (by decide)
    rw [h]
    decide
  · exact C8_expand_canonicalizes.2.2 blobNoneRoot "blob:none".toList
      (by decide) (by decide) rfl

/-- C9: the reserved-text validator rejects a still-encoded sub-token if
and only if it contains a character that is a control character or space
(value at most 0x20) or a member of the fixed punctuation set
`RESERVED_NON_WS` — no other character is rejected — and on rejection its
message names the first offending character. -/
theorem C9_reserved_validator (t err : Str) :
    ((has_reserved_character t err).1 = 1 ↔
      ∃ c ∈ t, c.toNat ≤ 32 ∨ c ∈ RESERVED_NON_WS) ∧
    (∀ (pre : Str) (c : Char) (post : Str), t = pre ++ c :: post →
      (∀ d ∈ pre, ¬(d.toNat ≤ 32 ∨ d ∈ RESERVED_NON_WS)) →
      (c.toNat ≤ 32 ∨ c ∈ RESERVED_NON_WS) →
      has_reserved_character t err
        = (1, err ++ ("must escape char in sub-filter-spec: \x27".toList
                       ++ [c] ++ "\x27".toList))) :=
  ⟨has_reserved_character_iff t err,
   fun pre c post ht hclean hoff =>
     has_reserved_character_first pre t err c post ht hclean hoff⟩

/-- Witness for C9: on ` x` the validator rejects and names the leading
space, the first offending character. -/
theorem C9_reserved_validator_witness :
    has_reserved_character " x".toList []
      = (1, "must escape char in sub-filter-spec: \x27 \x27".toList) := by
  have h := (C9_reserved_validator " x".toList []).2 [] ' ' "x".toList
    (by decide) (by simp) (Or.inl (by decide))
  simpa using h

/-- C10 counterexample: the claim says every combine body with a trailing
`+` fails to parse; but `combine:sparse:oid=x+` parses successfully — the
final token keeps its `+` and the `sparse:oid=` branch absorbs it into the
oid expression. -/
theorem C10_counterexample :
    parse_list_objects_filter (fun _ => none) emptyFO
        "combine:sparse:oid=x+".toList
      = some { choice := Choice.LOFC_COMBINE,
               filter_spec := some "combine:sparse:oid=x+".toList,
               blob_limit_value := 0, tree_exclude_depth := 0,
               sparse_oid_value := none,
               sub := [{ choice := Choice.LOFC_SPARSE_OID, filter_spec := none,
                         blob_limit_value := 0, tree_exclude_depth := 0,
                         sparse_oid_value := none, sub := [] }] } := by
  simp [parse_list_objects_filter, gently_parse_list_objects_filter,
        parse_combine_filter, parse_combine_filter_loop, parse_combine_subfilter,
        skip_prefix, git_parse_ulong, url_percent_decode, has_reserved_character,
        strbuf_split_str, RESERVED_NON_WS, hexVal, emptyFO]

/-- C10 amended: a combine body with a leading `+` or two consecutive `+`
characters always fails to parse — the empty token (the stripped bare `+`)
is handed to the spec parser and rejected as an invalid filter-spec.  A
trailing `+` is instead kept on the final token and only fails when that
token does not itself parse (see the counterexample, where `sparse:oid=`
absorbs it). -/
theorem C10_amended_empty_subtokens_fail (resolve : Str → Option Str)
    (fo : FilterOptions) (body err : Str)
    (h : (∃ z, body = '+' :: z) ∨ ∃ x y, body = x ++ '+' :: '+' :: y) :
    ∀ (fo2 : FilterOptions) (err2 : Str),
      parse_combine_filter resolve fo body err ≠ some (0, fo2, err2) := by
  intro fo2 err2 hcon
  have hmem : ['+'] ∈ strbuf_split_str '+' body := by
    rcases h with ⟨z, rfl⟩ | ⟨x, y, rfl⟩
    · exact split_head_plus z
    · exact split_mem_plus x.length x y (le_refl _)
  rw [parse_combine_filter.eq_def] at hcon
  split at hcon
  · rename_i hsplit
    rw [hsplit] at hmem
    simp at hmem
  · rename_i t rest hsplit
    rw [hsplit] at hmem
    split at hcon
    · simp at hcon
    · rename_i r2 fo1 err1 hloop
      split at hcon
      · rename_i hrne
        simp only [Option.some.injEq, Prod.mk.injEq] at hcon
        exact hrne hcon.1
      · rename_i hr0
        simp only [ne_eq, Decidable.not_not] at hr0
        subst hr0
        exact loop_plus_token_not_success resolve (t :: rest) fo err hmem
          fo1 err1 hloop

/-- Witness for C10 amended at the leading-`+` body `+`. -/
theorem C10_amended_empty_subtokens_fail_witness :
    parse_combine_filter (fun _ => none) emptyFO "+".toList []
      ≠ some (0, emptyFO, []) :=
  C10_amended_empty_subtokens_fail (fun _ => none) emptyFO "+".toList []
    (Or.inl ⟨[], by decide⟩) emptyFO []

end GitFilterSpec
